import Mathlib

set_option autoImplicit false

/-
Shallow embedding of the referral backend (src/index.js, with src/unnamed/part_000
an earlier draft of the same file).  The Firebase Realtime Database is modelled as
an explicit state value `DB`; each Express handler becomes a pure function from a
`DB` (plus the request data) to a result and an updated `DB`.  The `await`
boundaries of the `/applyReferral` handler are made explicit by splitting it into
a read phase (`applyPhase1`) and the single multi-path write (`applyCommit`), so
that interleavings of concurrent requests can be expressed; the sequential handler
`applyReferral` is their composition.
-/

namespace ReferralBackend

/-- A user record stored under `/users/<uid>`.  Fields are optional because
Firebase records only hold the children that were ever written. -/
structure User where
  referralCode : Option String
  coins : Option Int
  referredBy : Option String
  referralAppliedAt : Option Nat
  displayName : Option String
  updatedAt : Option Nat
deriving DecidableEq, Repr

/-- The record a missing `/users/<uid>` snapshot collapses to
(`newUserSnap.exists() ? newUserSnap.val() : {}`). -/
def emptyUser : User :=
  { referralCode := none, coins := none, referredBy := none,
    referralAppliedAt := none, displayName := none, updatedAt := none }

/-- An audit record stored under `/referrals/<referralId>`, exactly the object
built at src/index.js lines 226-236. -/
structure RefEntry where
  id : String
  referrerUid : String
  referredUid : String
  referrerCode : String
  referredCode : Option String
  awarded : Bool
  referrerCoins : Int
  referredCoins : Int
  createdAt : Nat
deriving DecidableEq, Repr

/-- The record stored under `/admin/settings/referral`. -/
structure Settings where
  referrerCoins : Option Int
  referredCoins : Option Int
  requireCompleteProfile : Option Bool
deriving DecidableEq, Repr

/-- The whole database state: `/users` as key-ordered children, `/referrals` as
an append-ordered list, and the settings record.  A missing settings record is
represented by the all-`none` value, which the handlers cannot distinguish from
an empty object. -/
structure DB where
  users : List (String × User)
  referrals : List RefEntry
  settings : Settings
deriving DecidableEq, Repr

/-- JS truthiness of an optional numeric field: `undefined` and `0` are falsy. -/
def truthyNat : Option Nat → Bool
  | none => false
  | some n => n != 0

/-- JS truthiness of an optional string field: `undefined` and `""` are falsy. -/
def truthyStr : Option String → Bool
  | none => false
  | some s => s != ""

/-- JS `s || null` on an optional string (src/index.js line 231). -/
def strOrNull : Option String → Option String
  | none => none
  | some s => if s = "" then none else some s

/-- Read `/users/<uid>`: the first child with that key. -/
def getUser (users : List (String × User)) (uid : String) : Option User :=
  (users.find? (fun p => p.1 == uid)).map Prod.snd

/-- Write a full record at `/users/<uid>`: replace the child if present,
create it otherwise. -/
def setUser (users : List (String × User)) (uid : String) (u : User) :
    List (String × User) :=
  if (users.find? (fun p => p.1 == uid)).isSome then
    users.map (fun p => if p.1 == uid then (uid, u) else p)
  else
    users ++ [(uid, u)]

/-- `db.ref('/users').orderByChild('referralCode').equalTo(code).limitToFirst(1)`:
the first child (in key order, which the list order represents) whose
`referralCode` equals the code. -/
def findByCode (users : List (String × User)) (code : String) :
    Option (String × User) :=
  users.find? (fun p => p.2.referralCode == some code)

/-- `Number(settings.X || process.env.DEFAULT_X_COINS || fallback)` with the env
variable unset: a stored non-zero amount wins, otherwise the fallback (JS `||`
treats a stored `0` as falsy). -/
def resolveAward (stored : Option Int) (fallback : Int) : Int :=
  match stored with
  | some n => if n = 0 then fallback else n
  | none => fallback

/-- Hardcoded fallback in `Number(settings.referrerCoins || ... || 50)`. -/
def DEFAULT_REFERRER_COINS : Int := 50

/-- Hardcoded fallback in `Number(settings.referredCoins || ... || 20)`. -/
def DEFAULT_REFERRED_COINS : Int := 20

/-- Outcome of a `/applyReferral` request, one constructor per `return` of the
handler. -/
inductive ApplyResult where
  | badNewUid
  | missingCode
  | alreadyApplied
  | codeNotFound
  | selfReferral
  | success (referrerUid : String) (referrerCoins referredCoins : Int)
deriving DecidableEq, Repr

/-- The HTTP status each outcome is sent with. -/
def ApplyResult.httpStatus : ApplyResult → Nat
  | .badNewUid => 400
  | .missingCode => 400
  | .alreadyApplied => 409
  | .codeNotFound => 404
  | .selfReferral => 400
  | .success _ _ _ => 200

/-- Whether the outcome is an error (a non-2xx early return). -/
def ApplyResult.isErr : ApplyResult → Bool
  | .success _ _ _ => false
  | _ => true

/-- Everything the handler has computed when it reaches the
`await db.ref().update(updates)` line: the data of the multi-path update. -/
structure Pending where
  newUid : String
  usedCode : String
  referrerUid : String
  newUserData : User
  referrerUser : User
  referrerCoins : Int
  referredCoins : Int
  now : Nat
  referralId : String
deriving DecidableEq, Repr

/-- The read-and-validate phase of `/applyReferral` (src/index.js lines
152-236): all checks and reads up to, but not including, the multi-path write.
`tokenUid` is the verified token's uid, `now` is `Date.now()`, `referralId` the
generated uuid.  Returns the early-exit result or the pending update. -/
def applyPhase1 (db : DB) (tokenUid newUid usedCode : String) (now : Nat)
    (referralId : String) : ApplyResult ⊕ Pending :=
  if newUid = "" ∨ newUid ≠ tokenUid then .inl .badNewUid
  else if usedCode = "" then .inl .missingCode
  else
    let newUserData := (getUser db.users newUid).getD emptyUser
    if truthyNat newUserData.referralAppliedAt then .inl .alreadyApplied
    else
      match findByCode db.users usedCode with
      | none => .inl .codeNotFound
      | some (referrerUid, referrerUser) =>
        if referrerUid = newUid then .inl .selfReferral
        else
          .inr { newUid := newUid, usedCode := usedCode,
                 referrerUid := referrerUid, newUserData := newUserData,
                 referrerUser := referrerUser,
                 referrerCoins :=
                   resolveAward db.settings.referrerCoins DEFAULT_REFERRER_COINS,
                 referredCoins :=
                   resolveAward db.settings.referredCoins DEFAULT_REFERRED_COINS,
                 now := now, referralId := referralId }

/-- The single `db.ref().update(updates)` of `/applyReferral` (src/index.js
lines 210-239): writes the absolute values computed during the read phase. -/
def applyCommit (db : DB) (p : Pending) : DB :=
  let newRec : User :=
    { p.newUserData with
      referredBy := some p.usedCode
      referralAppliedAt := some p.now
      coins := some (p.newUserData.coins.getD 0 + p.referredCoins)
      updatedAt := some p.now }
  let refRec : User :=
    { p.referrerUser with
      coins := some (p.referrerUser.coins.getD 0 + p.referrerCoins)
      updatedAt := some p.now }
  let entry : RefEntry :=
    { id := p.referralId
      referrerUid := p.referrerUid
      referredUid := p.newUid
      referrerCode := p.usedCode
      referredCode := strOrNull p.newUserData.referralCode
      awarded := true
      referrerCoins := p.referrerCoins
      referredCoins := p.referredCoins
      createdAt := p.now }
  { db with
    users := setUser (setUser db.users p.newUid newRec) p.referrerUid refRec
    referrals := db.referrals ++ [entry] }

/-- The whole `/applyReferral` handler run to completion without interleaving:
read phase, then (on success) the commit. -/
def applyReferral (db : DB) (tokenUid newUid usedCode : String) (now : Nat)
    (referralId : String) : ApplyResult × DB :=
  match applyPhase1 db tokenUid newUid usedCode now referralId with
  | .inl r => (r, db)
  | .inr p => (.success p.referrerUid p.referrerCoins p.referredCoins,
               applyCommit db p)

/-- The data of one `/applyReferral` request: the verified token uid, the two
body fields, `Date.now()` at handler time and the generated uuid. -/
structure Request where
  tokenUid : String
  newUid : String
  usedCode : String
  now : Nat
  referralId : String
deriving DecidableEq, Repr

/-- Run one request through the sequential handler. -/
def step (db : DB) (r : Request) : ApplyResult × DB :=
  applyReferral db r.tokenUid r.newUid r.usedCode r.now r.referralId

/-- Serial execution of a list of `/applyReferral` requests: each handler runs
to completion before the next starts.  Returns the responses and the final
database. -/
def runTrace (db : DB) : List Request → List ApplyResult × DB
  | [] => ([], db)
  | r :: rs =>
    let s := step db r
    let t := runTrace s.2 rs
    (s.1 :: t.1, t.2)

/-- One realizable interleaving of two concurrent `/applyReferral` requests:
both handlers complete their read phase against the same state before either
reaches its write, then the writes land in order (request 1, then request 2).
Concurrency is possible because each handler suspends at every `await`. -/
def interleavedPair (db : DB) (r1 r2 : Request) :
    ApplyResult × ApplyResult × DB :=
  match applyPhase1 db r1.tokenUid r1.newUid r1.usedCode r1.now r1.referralId,
        applyPhase1 db r2.tokenUid r2.newUid r2.usedCode r2.now r2.referralId with
  | .inl a, .inl b => (a, b, db)
  | .inl a, .inr p2 =>
    (a, .success p2.referrerUid p2.referrerCoins p2.referredCoins,
     applyCommit db p2)
  | .inr p1, .inl b =>
    (.success p1.referrerUid p1.referrerCoins p1.referredCoins, b,
     applyCommit db p1)
  | .inr p1, .inr p2 =>
    (.success p1.referrerUid p1.referrerCoins p1.referredCoins,
     .success p2.referrerUid p2.referrerCoins p2.referredCoins,
     applyCommit (applyCommit db p1) p2)

/-- `makeReferralCode` (src/index.js lines 76-79): the sha1-hex digest of
`uid + Date.now()`, truncated to 6 uppercase hex characters, is external
crypto and is abstracted as the function `hash6`. -/
def makeReferralCode (hash6 : String → String) (uid : String) (now : Nat) :
    String :=
  (uid.take 3).toUpper ++ "-" ++ hash6 (uid ++ toString now)

/-- The `/generateReferral` handler (src/index.js lines 89-117): return the
persisted code if the record exists and has a truthy `referralCode`; otherwise
generate a code and merge `{referralCode, updatedAt}` into the record. -/
def generateReferral (hash6 : String → String) (db : DB) (uid : String)
    (now : Nat) : String × DB :=
  match getUser db.users uid with
  | some data =>
    if truthyStr data.referralCode then (data.referralCode.getD "", db)
    else
      let newCode := makeReferralCode hash6 uid now
      (newCode,
       { db with
         users := setUser db.users uid
           { data with referralCode := some newCode, updatedAt := some now } })
  | none =>
    let newCode := makeReferralCode hash6 uid now
    (newCode,
     { db with
       users := setUser db.users uid
         { emptyUser with referralCode := some newCode, updatedAt := some now } })

/-- Insert an entry into a list that is ascending by `createdAt`, keeping it
ascending. -/
def insertByCreatedAt (e : RefEntry) : List RefEntry → List RefEntry
  | [] => [e]
  | x :: xs =>
    if x.createdAt ≤ e.createdAt then x :: insertByCreatedAt e xs
    else e :: x :: xs

/-- `orderByChild('createdAt')`: Firebase serves the children of `/referrals`
in ascending order of the ordered child. -/
def sortByCreatedAt : List RefEntry → List RefEntry
  | [] => []
  | x :: xs => insertByCreatedAt x (sortByCreatedAt xs)

/-- `limitToLast(n)`: the last `n` elements of the query order. -/
def takeLast {α : Type} (n : Nat) (l : List α) : List α :=
  l.drop (l.length - n)

/-- The `GET /admin/referrals` handler (src/index.js lines 266-278):
`limit = Math.min(200, Number(req.query.limit || 100))`, then the last `limit`
entries in ascending `createdAt` order. -/
def listRecent (referrals : List RefEntry) (limitQ : Option Nat) :
    List RefEntry :=
  let lim := min 200 (limitQ.getD 100)
  takeLast lim (sortByCreatedAt referrals)

/-- Firebase `update` merge of the `updates` object built by
`POST /admin/settings/referral`: a field is overwritten exactly when the
request provided it. -/
def mergeSettings (stored : Settings) (rc dc : Option Int) (rp : Option Bool) :
    Settings :=
  { referrerCoins := match rc with | some v => some v | none => stored.referrerCoins
    referredCoins := match dc with | some v => some v | none => stored.referredCoins
    requireCompleteProfile :=
      match rp with | some v => some v | none => stored.requireCompleteProfile }

/-- The `POST /admin/settings/referral` handler (src/index.js lines 314-324):
merge the provided fields into the stored record and respond with
`{success: true, saved: updates}` where `updates` holds only the provided
fields. -/
def updateSettingsHandler (db : DB) (rc dc : Option Int) (rp : Option Bool) :
    Settings × DB :=
  ({ referrerCoins := rc, referredCoins := dc, requireCompleteProfile := rp },
   { db with settings := mergeSettings db.settings rc dc rp })

/-- Number of ledger entries recorded for a given referred account. -/
def countReferred (uid : String) (referrals : List RefEntry) : Nat :=
  (referrals.filter (fun e => e.referredUid == uid)).length

/-- The `referralAppliedAt` guard as the handler evaluates it on the current
state of an account. -/
def appliedGuard (db : DB) (uid : String) : Bool :=
  truthyNat ((getUser db.users uid).getD emptyUser).referralAppliedAt

/-- The user-store children have pairwise distinct keys (Firebase guarantees
one child per key). -/
def keysNodup (users : List (String × User)) : Prop :=
  (users.map Prod.fst).Nodup

/-- Current coin balance of an account as the handlers read it
(`user.coins || 0`). -/
def coinsOf (db : DB) (uid : String) : Int :=
  ((getUser db.users uid).getD emptyUser).coins.getD 0

lemma find?_map_overwrite_isSome (us : List (String × User)) (a : String)
    (u : User) (h : (us.find? (fun p => p.1 == a)).isSome) :
    (us.map (fun p => if p.1 == a then (a, u) else p)).find? (fun p => p.1 == a)
      = some (a, u) := by
  induction us with
  | nil => simp at h
  | cons p rest ih =>
    by_cases hp : p.1 = a
    · rw [List.map_cons, if_pos (by simp [hp]),
        List.find?_cons_of_pos _ (by simp)]
    · rw [List.map_cons, if_neg (by simp [hp]),
        List.find?_cons_of_neg _ (by simp [hp])]
      apply ih
      rwa [List.find?_cons_of_neg _ (by simp [hp])] at h

lemma find?_map_overwrite_ne (us : List (String × User)) (a b : String)
    (u : User) (hne : b ≠ a) :
    (us.map (fun p => if p.1 == a then (a, u) else p)).find? (fun p => p.1 == b)
      = us.find? (fun p => p.1 == b) := by
  induction us with
  | nil => rfl
  | cons p rest ih =>
    by_cases hp : p.1 = a
    · rw [List.map_cons, if_pos (by simp [hp]),
        List.find?_cons_of_neg _ (by simp [Ne.symm hne]),
        List.find?_cons_of_neg _ (by simp [hp, Ne.symm hne]), ih]
    · by_cases hpb : p.1 = b
      · rw [List.map_cons, if_neg (by simp [hp]),
          List.find?_cons_of_pos _ (by simp [hpb]),
          List.find?_cons_of_pos _ (by simp [hpb])]
      · rw [List.map_cons, if_neg (by simp [hp]),
          List.find?_cons_of_neg _ (by simp [hpb]),
          List.find?_cons_of_neg _ (by simp [hpb]), ih]

lemma getUser_setUser_self (us : List (String × User)) (a : String) (u : User) :
    getUser (setUser us a u) a = some u := by
  unfold getUser setUser
  by_cases h : (us.find? (fun p => p.1 == a)).isSome
  · rw [if_pos h, find?_map_overwrite_isSome us a u h]
    rfl
  · rw [if_neg h, List.find?_append]
    have hn : us.find? (fun p => p.1 == a) = none := by
      cases hf : us.find? (fun p => p.1 == a) <;> simp [hf] at h ⊢
    simp [hn, List.find?]

lemma getUser_setUser_ne (us : List (String × User)) (a b : String) (u : User)
    (hne : b ≠ a) : getUser (setUser us a u) b = getUser us b := by
  unfold getUser setUser
  by_cases h : (us.find? (fun p => p.1 == a)).isSome
  · rw [if_pos h, find?_map_overwrite_ne us a b u hne]
  · rw [if_neg h, List.find?_append]
    have : ([(a, u)].find? (fun p => p.1 == b)) = none := by
      rw [List.find?_cons_of_neg _ (by simp [Ne.symm hne])]
      rfl
    cases hf : us.find? (fun p => p.1 == b) <;> simp [hf, this]

lemma keysNodup_setUser (us : List (String × User)) (a : String) (u : User)
    (h : keysNodup us) : keysNodup (setUser us a u) := by
  unfold keysNodup at h
  unfold keysNodup setUser
  by_cases hs : (us.find? (fun p => p.1 == a)).isSome
  · rw [if_pos hs]
    have : (us.map (fun p => if p.1 == a then (a, u) else p)).map Prod.fst
        = us.map Prod.fst := by
      rw [List.map_map]
      apply List.map_congr_left
      intro p _
      by_cases hp : p.1 = a
      · simp [Function.comp, hp]
      · simp [Function.comp, hp]
    rw [this]
    exact h
  · rw [if_neg hs]
    have hn : us.find? (fun p => p.1 == a) = none := by
      cases hf : us.find? (fun p => p.1 == a) <;> simp [hf] at hs ⊢
    have hnotmem : a ∉ us.map Prod.fst := by
      intro hmem
      rcases List.mem_map.mp hmem with ⟨p, hpmem, hpa⟩
      have := List.find?_eq_none.mp hn p hpmem
      simp [hpa] at this
    simp only [List.map_append, List.map_cons, List.map_nil]
    rw [List.nodup_append]
    refine ⟨h, List.nodup_singleton a, ?_⟩
    intro x hx
    simp only [List.mem_singleton]
    intro hxa
    exact hnotmem (hxa ▸ hx)

lemma findByCode_getUser (us : List (String × User)) (code a : String)
    (u : User) (hn : keysNodup us)
    (h : findByCode us code = some (a, u)) : getUser us a = some u := by
  revert hn h
  induction us with
  | nil =>
    intro hn h
    simp [findByCode] at h
  | cons p rest ih =>
    intro hn h
    by_cases hp : p.2.referralCode = some code
    · rw [show findByCode (p :: rest) code = some p from by
        unfold findByCode
        exact List.find?_cons_of_pos _ (by simp [hp])] at h
      have hpa : p = (a, u) := by
        injection h
      unfold getUser
      rw [hpa, List.find?_cons_of_pos _ (by simp)]
      rfl
    · have h2 : findByCode rest code = some (a, u) := by
        unfold findByCode at h ⊢
        rwa [List.find?_cons_of_neg _ (by simp [hp])] at h
      simp only [keysNodup, List.map_cons, List.nodup_cons] at hn
      have hrest := ih hn.2 h2
      have hmem : (a, u) ∈ rest := List.mem_of_find?_eq_some h2
      have hne : p.1 ≠ a := by
        intro hpa
        exact hn.1 (List.mem_map.mpr ⟨(a, u), hmem, by simp [hpa]⟩)
      unfold getUser at hrest ⊢
      rwa [List.find?_cons_of_neg _ (by simp [hne])]

lemma applyReferral_of_inl (db : DB) (t n c : String) (now : Nat) (id : String)
    (r : ApplyResult) (h : applyPhase1 db t n c now id = .inl r) :
    applyReferral db t n c now id = (r, db) := by
  unfold applyReferral
  rw [h]

lemma applyPhase1_inr_spec (db : DB) (t n c : String) (now : Nat) (id : String)
    (p : Pending) (h : applyPhase1 db t n c now id = .inr p) :
    n ≠ "" ∧ n = t ∧ c ≠ "" ∧ appliedGuard db n = false ∧
    findByCode db.users c = some (p.referrerUid, p.referrerUser) ∧
    p.referrerUid ≠ n ∧ p.newUid = n ∧ p.usedCode = c ∧
    p.newUserData = (getUser db.users n).getD emptyUser ∧
    p.referrerCoins = resolveAward db.settings.referrerCoins DEFAULT_REFERRER_COINS ∧
    p.referredCoins = resolveAward db.settings.referredCoins DEFAULT_REFERRED_COINS ∧
    p.now = now ∧ p.referralId = id := by
  unfold applyPhase1 at h
  by_cases h1 : n = "" ∨ n ≠ t
  · rw [if_pos h1] at h
    exact absurd h (by simp)
  · rw [if_neg h1] at h
    push_neg at h1
    by_cases h2 : c = ""
    · rw [if_pos h2] at h
      exact absurd h (by simp)
    · rw [if_neg h2] at h
      simp only [] at h
      by_cases h3 : truthyNat ((getUser db.users n).getD emptyUser).referralAppliedAt
      · rw [if_pos h3] at h
        exact absurd h (by simp)
      · rw [if_neg h3] at h
        cases hf : findByCode db.users c with
        | none =>
          rw [hf] at h
          exact absurd h (by simp)
        | some q =>
          rw [hf] at h
          simp only [] at h
          by_cases h4 : q.1 = n
          · rw [if_pos h4] at h
            exact absurd h (by simp)
          · rw [if_neg h4] at h
            have h5 := Sum.inr.inj h
            subst h5
            exact ⟨h1.1, h1.2, h2, by simpa [appliedGuard] using h3, rfl, h4,
              rfl, rfl, rfl, rfl, rfl, rfl, rfl⟩

lemma getUser_applyCommit_other (db : DB) (p : Pending) (x : String)
    (hx1 : x ≠ p.newUid) (hx2 : x ≠ p.referrerUid) :
    getUser (applyCommit db p).users x = getUser db.users x := by
  simp only [applyCommit]
  rw [getUser_setUser_ne _ _ _ _ hx2, getUser_setUser_ne _ _ _ _ hx1]

lemma getUser_applyCommit_referrer (db : DB) (p : Pending) :
    getUser (applyCommit db p).users p.referrerUid
      = some { p.referrerUser with
               coins := some (p.referrerUser.coins.getD 0 + p.referrerCoins)
               updatedAt := some p.now } := by
  simp only [applyCommit]
  rw [getUser_setUser_self]

lemma getUser_applyCommit_newUser (db : DB) (p : Pending)
    (h : p.referrerUid ≠ p.newUid) :
    getUser (applyCommit db p).users p.newUid
      = some { p.newUserData with
               referredBy := some p.usedCode
               referralAppliedAt := some p.now
               coins := some (p.newUserData.coins.getD 0 + p.referredCoins)
               updatedAt := some p.now } := by
  simp only [applyCommit]
  rw [getUser_setUser_ne _ _ _ _ (Ne.symm h), getUser_setUser_self]

lemma referrals_applyCommit (db : DB) (p : Pending) :
    (applyCommit db p).referrals = db.referrals ++
      [{ id := p.referralId
         referrerUid := p.referrerUid
         referredUid := p.newUid
         referrerCode := p.usedCode
         referredCode := strOrNull p.newUserData.referralCode
         awarded := true
         referrerCoins := p.referrerCoins
         referredCoins := p.referredCoins
         createdAt := p.now }] := rfl

lemma settings_applyCommit (db : DB) (p : Pending) :
    (applyCommit db p).settings = db.settings := rfl

lemma keysNodup_applyCommit (db : DB) (p : Pending)
    (h : keysNodup db.users) : keysNodup (applyCommit db p).users := by
  simp only [applyCommit]
  exact keysNodup_setUser _ _ _ (keysNodup_setUser _ _ _ h)

lemma countReferred_append_single (uid : String) (refs : List RefEntry)
    (e : RefEntry) :
    countReferred uid (refs ++ [e])
      = countReferred uid refs + (if e.referredUid = uid then 1 else 0) := by
  unfold countReferred
  rw [List.filter_append]
  by_cases h : e.referredUid = uid
  · simp [h]
  · simp [h]

lemma appliedGuard_applyCommit_newUid (db : DB) (p : Pending)
    (h : p.referrerUid ≠ p.newUid) :
    appliedGuard (applyCommit db p) p.newUid = (p.now != 0) := by
  unfold appliedGuard
  rw [getUser_applyCommit_newUser db p h]
  rfl

lemma appliedGuard_applyCommit_preserved (db : DB) (p : Pending) (A : String)
    (hA : A ≠ p.newUid) (hnd : keysNodup db.users)
    (hfind : findByCode db.users p.usedCode = some (p.referrerUid, p.referrerUser)) :
    appliedGuard (applyCommit db p) A = appliedGuard db A := by
  by_cases hR : A = p.referrerUid
  · unfold appliedGuard
    rw [hR, getUser_applyCommit_referrer,
      findByCode_getUser db.users p.usedCode p.referrerUid p.referrerUser hnd hfind]
    rfl
  · unfold appliedGuard
    rw [getUser_applyCommit_other db p A hA hR]

lemma coinsOf_applyCommit_referrer (db : DB) (p : Pending)
    (hnd : keysNodup db.users)
    (hfind : findByCode db.users p.usedCode = some (p.referrerUid, p.referrerUser)) :
    coinsOf (applyCommit db p) p.referrerUid
      = coinsOf db p.referrerUid + p.referrerCoins := by
  unfold coinsOf
  rw [getUser_applyCommit_referrer,
    findByCode_getUser db.users p.usedCode p.referrerUid p.referrerUser hnd hfind]
  rfl

lemma coinsOf_applyCommit_other (db : DB) (p : Pending) (x : String)
    (h1 : x ≠ p.newUid) (h2 : x ≠ p.referrerUid) :
    coinsOf (applyCommit db p) x = coinsOf db x := by
  unfold coinsOf
  rw [getUser_applyCommit_other db p x h1 h2]

lemma applyPhase1_inl_isErr (db : DB) (t n c : String) (now : Nat)
    (id : String) (e : ApplyResult)
    (h : applyPhase1 db t n c now id = .inl e) : e.isErr = true := by
  unfold applyPhase1 at h
  by_cases h1 : n = "" ∨ n ≠ t
  · rw [if_pos h1] at h
    cases h
    rfl
  · rw [if_neg h1] at h
    by_cases h2 : c = ""
    · rw [if_pos h2] at h
      cases h
      rfl
    · rw [if_neg h2] at h
      simp only [] at h
      by_cases h3 : truthyNat ((getUser db.users n).getD emptyUser).referralAppliedAt
      · rw [if_pos h3] at h
        cases h
        rfl
      · rw [if_neg h3] at h
        cases hf : findByCode db.users c with
        | none =>
          rw [hf] at h
          cases h
          rfl
        | some q =>
          rw [hf] at h
          simp only [] at h
          by_cases h4 : q.1 = n
          · rw [if_pos h4] at h
            cases h
            rfl
          · rw [if_neg h4] at h
            exact absurd h (by simp)

lemma step_cases (db : DB) (r : Request) :
    ((step db r).2 = db ∧ ((step db r).1).isErr = true) ∨
    ∃ p, applyPhase1 db r.tokenUid r.newUid r.usedCode r.now r.referralId = .inr p ∧
      (step db r).1 = .success p.referrerUid p.referrerCoins p.referredCoins ∧
      (step db r).2 = applyCommit db p := by
  unfold step applyReferral
  cases hp : applyPhase1 db r.tokenUid r.newUid r.usedCode r.now r.referralId with
  | inl e =>
    exact Or.inl ⟨rfl, applyPhase1_inl_isErr _ _ _ _ _ _ _ hp⟩
  | inr p =>
    exact Or.inr ⟨p, rfl, rfl, rfl⟩

/-- The exactly-once invariant for a target account: distinct store keys, at
most one ledger entry for the account, and no ledger entry at all while the
`referralAppliedAt` guard is still unset. -/
def InvA (A : String) (db : DB) : Prop :=
  keysNodup db.users ∧ countReferred A db.referrals ≤ 1 ∧
  (appliedGuard db A = false → countReferred A db.referrals = 0)

lemma InvA_step (A : String) (db : DB) (r : Request) (hnow : 0 < r.now)
    (h : InvA A db) : InvA A (step db r).2 := by
  rcases step_cases db r with ⟨he, _⟩ | ⟨p, hp, _, he⟩
  · rwa [he]
  · rw [he]
    obtain ⟨hne, hnt, hc, hguard, hfind, hrne, hnewuid, hcode, hdata, hrc,
      hdc, hpnow, hpid⟩ := applyPhase1_inr_spec _ _ _ _ _ _ _ hp
    obtain ⟨hnd, hle, himp⟩ := h
    have hfind2 : findByCode db.users p.usedCode
        = some (p.referrerUid, p.referrerUser) := by
      rw [hcode]
      exact hfind
    have hrnew : p.referrerUid ≠ p.newUid := by
      rw [hnewuid]
      exact hrne
    refine ⟨keysNodup_applyCommit db p hnd, ?_, ?_⟩
    · rw [referrals_applyCommit, countReferred_append_single]
      by_cases hAn : p.newUid = A
      · rw [if_pos hAn]
        have h0 : countReferred A db.referrals = 0 := by
          apply himp
          rw [← hAn, hnewuid]
          exact hguard
        omega
      · rw [if_neg hAn]
        omega
    · intro hg
      by_cases hAn : p.newUid = A
      · exfalso
        rw [← hAn, appliedGuard_applyCommit_newUid db p hrnew] at hg
        have : p.now = 0 := by simpa using hg
        rw [hpnow] at this
        omega
      · have hg0 : appliedGuard db A = false := by
          rw [← appliedGuard_applyCommit_preserved db p A
            (fun hh => hAn hh.symm) hnd hfind2]
          exact hg
        rw [referrals_applyCommit, countReferred_append_single, if_neg hAn,
          himp hg0]

lemma InvA_runTrace (A : String) (db : DB) (rs : List Request)
    (hnow : ∀ r ∈ rs, 0 < r.now) (h : InvA A db) :
    InvA A (runTrace db rs).2 := by
  induction rs generalizing db with
  | nil => exact h
  | cons r rest ih =>
    have hrw : (runTrace db (r :: rest)).2 = (runTrace (step db r).2 rest).2 := rfl
    rw [hrw]
    exact ih (step db r).2
      (fun r' h' => hnow r' (List.mem_cons_of_mem _ h'))
      (InvA_step A db r (hnow r (List.mem_cons_self _ _)) h)

lemma applyReferral_alreadyApplied (db : DB) (A code : String) (now : Nat)
    (id : String) (hA : A ≠ "") (hc : code ≠ "")
    (hg : appliedGuard db A = true) :
    applyReferral db A A code now id = (.alreadyApplied, db) := by
  apply applyReferral_of_inl
  unfold applyPhase1
  unfold appliedGuard at hg
  rw [if_neg (by simp [hA]), if_neg hc]
  simp only [hg, if_true]

/-- The referrer award a single `/applyReferral` response contributes to the
balance of account R. -/
def awardOf (R : String) : ApplyResult → Int
  | .success ruid rc _ => if ruid = R then rc else 0
  | _ => 0

/-- Sum of the referrer awards the responses of a trace contribute to R. -/
def awardsTo (R : String) (results : List ApplyResult) : Int :=
  (results.map (awardOf R)).sum

lemma coinsOf_step (db : DB) (r : Request) (R : String)
    (hnd : keysNodup db.users) (hnR : r.newUid ≠ R) :
    coinsOf (step db r).2 R = coinsOf db R + awardOf R (step db r).1 ∧
    keysNodup (step db r).2.users := by
  rcases step_cases db r with ⟨he, herr⟩ | ⟨p, hp, hres, he⟩
  · rw [he]
    constructor
    · cases hr : (step db r).1 <;> simp [awardOf]
      rw [hr] at herr
      simp [ApplyResult.isErr] at herr
    · exact hnd
  · obtain ⟨hne, hnt, hc, hguard, hfind, hrne, hnewuid, hcode, hdata, hrc,
      hdc, hpnow, hpid⟩ := applyPhase1_inr_spec _ _ _ _ _ _ _ hp
    have hfind2 : findByCode db.users p.usedCode
        = some (p.referrerUid, p.referrerUser) := by
      rw [hcode]
      exact hfind
    rw [he, hres]
    constructor
    · by_cases hRr : p.referrerUid = R
      · rw [← hRr, coinsOf_applyCommit_referrer db p hnd hfind2]
        simp [awardOf, hRr]
      · rw [coinsOf_applyCommit_other db p R
          (by rw [hnewuid]; exact Ne.symm hnR) (fun hh => hRr hh.symm)]
        simp [awardOf, hRr]
    · exact keysNodup_applyCommit db p hnd

lemma coinsOf_runTrace (db : DB) (rs : List Request) (R : String)
    (hnd : keysNodup db.users) (hR : ∀ r ∈ rs, r.newUid ≠ R) :
    coinsOf (runTrace db rs).2 R = coinsOf db R + awardsTo R (runTrace db rs).1 := by
  induction rs generalizing db with
  | nil => simp [runTrace, awardsTo]
  | cons r rest ih =>
    have h1 := coinsOf_step db r R hnd (hR r (List.mem_cons_self _ _))
    have h2 := ih (step db r).2 h1.2
      (fun r' h' => hR r' (List.mem_cons_of_mem _ h'))
    have hrw2 : (runTrace db (r :: rest)).2 = (runTrace (step db r).2 rest).2 := rfl
    have hrw1 : (runTrace db (r :: rest)).1
        = (step db r).1 :: (runTrace (step db r).2 rest).1 := rfl
    rw [hrw2, h2, h1.1, hrw1]
    unfold awardsTo
    rw [List.map_cons, List.sum_cons]
    omega

/-- Concrete fixture: the record of a user owning referral code `U1C` with a
balance of 0 coins. -/
def u1User : User :=
  { emptyUser with referralCode := some "U1C", coins := some 0 }

/-- Concrete fixture: a missing `/admin/settings/referral` record. -/
def noSettings : Settings :=
  { referrerCoins := none, referredCoins := none, requireCompleteProfile := none }

/-- Concrete fixture: a store holding only user `u1` (owner of code `U1C`),
no ledger entries and no settings record. -/
def oneUserDB : DB :=
  { users := [("u1", u1User)], referrals := [], settings := noSettings }

/-- Concrete fixture: a well-formed `/applyReferral` request redeeming code
`U1C` for the given account. -/
def reqU (uid : String) (now : Nat) (id : String) : Request :=
  { tokenUid := uid, newUid := uid, usedCode := "U1C", now := now,
    referralId := id }

/-- Concrete fixture: user `u1` owns code `U1C` but has already redeemed
(`referralAppliedAt` set). -/
def appliedOwnerDB : DB :=
  { users := [("u1", { u1User with referralAppliedAt := some 5 })],
    referrals := [], settings := noSettings }

/-- C3: every `/applyReferral` request that ends in an error outcome returns
before the single multi-path write is reached, so the database — every account
balance, every account field and the ledger — is exactly unchanged. -/
theorem applyReferral_error_no_mutation (db : DB) (t n c : String) (now : Nat)
    (id : String) (h : ((applyReferral db t n c now id).1).isErr = true) :
    (applyReferral db t n c now id).2 = db := by
  unfold applyReferral at h ⊢
  cases hp : applyPhase1 db t n c now id with
  | inl e => rfl
  | inr p =>
    rw [hp] at h
    simp [ApplyResult.isErr] at h

/-- Witness for C3 at a concrete erroneous request (token/body uid mismatch). -/
theorem applyReferral_error_no_mutation_witness :
    ((applyReferral oneUserDB "tok" "u2" "U1C" 1 "i").1).isErr = true ∧
    (applyReferral oneUserDB "tok" "u2" "U1C" 1 "i").2 = oneUserDB :=
  ⟨by decide,
   applyReferral_error_no_mutation oneUserDB "tok" "u2" "U1C" 1 "i" (by decide)⟩

/-- C4 (amended): a request whose body `newUid` is missing or differs from the
verified token uid fails with the `badNewUid` outcome — HTTP 400 ("Bad
newUid"), not 403 — and this check fires first, for every state and every
value of the remaining fields, leaving the state unchanged. -/
theorem badNewUid_first_check (db : DB) (t n c : String) (now : Nat)
    (id : String) (h : n = "" ∨ n ≠ t) :
    applyReferral db t n c now id = (.badNewUid, db) ∧
    ApplyResult.httpStatus .badNewUid = 400 := by
  constructor
  · apply applyReferral_of_inl
    unfold applyPhase1
    rw [if_pos h]
  · rfl

/-- Witness for C4's amended theorem: a mismatched uid with an empty code is
still answered by the identity check. -/
theorem badNewUid_first_check_witness :
    (("u2" : String) = "" ∨ ("u2" : String) ≠ "tok") ∧
    (applyReferral oneUserDB "tok" "u2" "" 0 "i" = (.badNewUid, oneUserDB) ∧
     ApplyResult.httpStatus .badNewUid = 400) :=
  ⟨Or.inr (by decide),
   badNewUid_first_check oneUserDB "tok" "u2" "" 0 "i" (Or.inr (by decide))⟩

/-- C4 (counterexample): a request with a valid code whose only defect is the
identity mismatch is answered with HTTP 400, not the 403 the claim states. -/
theorem identity_mismatch_status_counterexample :
    (applyReferral oneUserDB "tok" "u2" "U1C" 1 "i").1 = .badNewUid ∧
    ((applyReferral oneUserDB "tok" "u2" "U1C" 1 "i").1).httpStatus = 400 ∧
    ((applyReferral oneUserDB "tok" "u2" "U1C" 1 "i").1).httpStatus ≠ 403 := by
  decide

/-- C5 (amended): when the target account has not yet redeemed, a code that
resolves to the target itself is rejected with the self-referral error, HTTP
400, with no state change.  (If the account has already redeemed, the earlier
`alreadyApplied` guard answers with 409 instead — see the counterexample.) -/
theorem self_referral_rejected (db : DB) (A code : String) (uA : User)
    (now : Nat) (id : String) (hA : A ≠ "") (hc : code ≠ "")
    (hguard : appliedGuard db A = false)
    (hfind : findByCode db.users code = some (A, uA)) :
    applyReferral db A A code now id = (.selfReferral, db) ∧
    ApplyResult.httpStatus .selfReferral = 400 := by
  constructor
  · apply applyReferral_of_inl
    unfold applyPhase1
    unfold appliedGuard at hguard
    rw [if_neg (by simp [hA]), if_neg hc]
    simp [hguard, hfind]
  · rfl

/-- Witness for C5's amended theorem: `u1` redeems its own code `U1C` while
not yet redeemed, and is answered with the self-referral error. -/
theorem self_referral_rejected_witness :
    (("u1" : String) ≠ "") ∧ (("U1C" : String) ≠ "") ∧
    appliedGuard oneUserDB "u1" = false ∧
    findByCode oneUserDB.users "U1C" = some ("u1", u1User) ∧
    (applyReferral oneUserDB "u1" "u1" "U1C" 9 "i" = (.selfReferral, oneUserDB) ∧
     ApplyResult.httpStatus .selfReferral = 400) :=
  ⟨by decide, by decide, by decide, by decide,
   self_referral_rejected oneUserDB "u1" "U1C" u1User 9 "i"
     (by decide) (by decide) (by decide) (by decide)⟩

/-- C5 (counterexample): an account that owns a code but has already redeemed
gets `alreadyApplied` (HTTP 409) from `redeem(A, A, codeOwnedByA)`, not
`SelfReferralForbidden`, because the idempotency guard is checked before the
code is resolved. -/
theorem self_referral_after_applied_counterexample :
    (applyReferral appliedOwnerDB "u1" "u1" "U1C" 9 "i").1 = .alreadyApplied ∧
    ((applyReferral appliedOwnerDB "u1" "u1" "U1C" 9 "i").1).httpStatus = 409 ∧
    (applyReferral appliedOwnerDB "u1" "u1" "U1C" 9 "i").1 ≠ .selfReferral := by
  decide

/-- C10: redemption has no existence precondition on the redeeming account: a
missing record passes the already-applied check as the empty record and the
commit creates `/users/newUid` holding exactly the referred award (prior
balance 0), the `referredBy` code and the `referralAppliedAt` stamp. -/
theorem applyReferral_creates_missing_account (db : DB) (A R code : String)
    (uR : User) (now : Nat) (id : String)
    (hget : getUser db.users A = none)
    (hfind : findByCode db.users code = some (R, uR))
    (hne : R ≠ A) (hA : A ≠ "") (hc : code ≠ "") :
    (applyReferral db A A code now id).1
      = .success R (resolveAward db.settings.referrerCoins DEFAULT_REFERRER_COINS)
          (resolveAward db.settings.referredCoins DEFAULT_REFERRED_COINS) ∧
    getUser (applyReferral db A A code now id).2.users A
      = some { referralCode := none
               coins := some (resolveAward db.settings.referredCoins DEFAULT_REFERRED_COINS)
               referredBy := some code
               referralAppliedAt := some now
               displayName := none
               updatedAt := some now } := by
  have hp : applyPhase1 db A A code now id = .inr
      { newUid := A, usedCode := code, referrerUid := R,
        newUserData := emptyUser, referrerUser := uR,
        referrerCoins := resolveAward db.settings.referrerCoins DEFAULT_REFERRER_COINS,
        referredCoins := resolveAward db.settings.referredCoins DEFAULT_REFERRED_COINS,
        now := now, referralId := id } := by
    unfold applyPhase1
    rw [if_neg (by simp [hA]), if_neg hc]
    simp [hget, truthyNat, emptyUser, hfind, hne]
  unfold applyReferral
  rw [hp]
  refine ⟨rfl, ?_⟩
  rw [getUser_applyCommit_newUser db _ hne]
  simp [emptyUser]

/-- Witness for C10: redeeming `U1C` from the absent account `u2` creates its
record with exactly the 20 default referred coins. -/
theorem applyReferral_creates_missing_account_witness :
    getUser oneUserDB.users "u2" = none ∧
    findByCode oneUserDB.users "U1C" = some ("u1", u1User) ∧
    (("u1" : String) ≠ "u2") ∧
    ((applyReferral oneUserDB "u2" "u2" "U1C" 100 "led1").1 = .success "u1" 50 20 ∧
     getUser (applyReferral oneUserDB "u2" "u2" "U1C" 100 "led1").2.users "u2"
       = some { referralCode := none, coins := some 20, referredBy := some "U1C",
                referralAppliedAt := some 100, displayName := none,
                updatedAt := some 100 }) :=
  ⟨by decide, by decide, by decide,
   applyReferral_creates_missing_account oneUserDB "u2" "u1" "U1C" u1User 100
     "led1" (by decide) (by decide) (by decide) (by decide) (by decide)⟩

/-- Concrete fixture: two serial redemption attempts by the same account. -/
def twoAttempts : List Request := [reqU "u2" 10 "e1", reqU "u2" 11 "e2"]

/-- C1 (counterexample): two concurrent `/applyReferral` calls for the same
account, interleaved so that both read phases run against the same state before
either commit, both succeed: two ledger entries are created for the account
and the second call does not return `alreadyApplied`, because the
`referralAppliedAt` guard is checked against the read taken at the start of
the handler, not against fresh state immediately before commit. -/
theorem double_redemption_interleaved_counterexample :
    countReferred "u2"
      (interleavedPair oneUserDB (reqU "u2" 10 "e1") (reqU "u2" 11 "e2")).2.2.referrals
      = 2 ∧
    (interleavedPair oneUserDB (reqU "u2" 10 "e1") (reqU "u2" 11 "e2")).1
      = .success "u1" 50 20 ∧
    (interleavedPair oneUserDB (reqU "u2" 10 "e1") (reqU "u2" 11 "e2")).2.1
      = .success "u1" 50 20 ∧
    (interleavedPair oneUserDB (reqU "u2" 10 "e1") (reqU "u2" 11 "e2")).2.1
      ≠ .alreadyApplied := by
  decide

/-- C1 (amended): under serial execution the property holds: starting from a
state satisfying the exactly-once invariant, any number of redeem calls leave
at most one ledger entry for account A; whenever A's persisted
`referralAppliedAt` is set, a redeem call for A returns `alreadyApplied`
(HTTP 409) with the whole state unchanged; and every successful redemption for
A sets that guard. -/
theorem applyReferral_exactly_once_serial (A : String) (db : DB)
    (rs : List Request) (hnow : ∀ r ∈ rs, 0 < r.now) (hInv : InvA A db) :
    countReferred A (runTrace db rs).2.referrals ≤ 1 ∧
    (∀ db2 code now id, A ≠ "" → code ≠ "" → appliedGuard db2 A = true →
      applyReferral db2 A A code now id = (.alreadyApplied, db2) ∧
      ApplyResult.httpStatus .alreadyApplied = 409) ∧
    (∀ db2 t code now id R rc dc db3, 0 < now →
      applyReferral db2 t A code now id = (.success R rc dc, db3) →
      appliedGuard db3 A = true) := by
  refine ⟨(InvA_runTrace A db rs hnow hInv).2.1, ?_, ?_⟩
  · intro db2 code now id hA hc hg
    exact ⟨applyReferral_alreadyApplied db2 A code now id hA hc hg, rfl⟩
  · intro db2 t2 code now2 id2 R rc dc db3 hpos hsucc
    have hsucc2 : step db2 ⟨t2, A, code, now2, id2⟩ = (.success R rc dc, db3) :=
      hsucc
    rcases step_cases db2 ⟨t2, A, code, now2, id2⟩ with
      ⟨_, herr⟩ | ⟨p, hp, _, he⟩
    · rw [hsucc2] at herr
      simp [ApplyResult.isErr] at herr
    · obtain ⟨hne, hnt, hc, hguard, hfind, hrne, hnewuid, hcode, hdata, hrc,
        hdc, hpnow, hpid⟩ := applyPhase1_inr_spec _ _ _ _ _ _ _ hp
      have hstep2 : (step db2 ⟨t2, A, code, now2, id2⟩).2 = db3 :=
        congrArg Prod.snd hsucc2
      have hdb3 : db3 = applyCommit db2 p := by
        rw [← hstep2]
        exact he
      have hrnew : p.referrerUid ≠ p.newUid := by
        rw [hnewuid]
        exact hrne
      have hnA : p.newUid = A := hnewuid
      have hpn : p.now = now2 := hpnow
      rw [hdb3, ← hnA, appliedGuard_applyCommit_newUid db2 p hrnew, hpn]
      simp only [bne_iff_ne, ne_eq, decide_eq_true_eq]
      omega

/-- Witness for C1's amended theorem: two serial attempts by `u2` on the
one-user store. -/
theorem applyReferral_exactly_once_serial_witness :
    (∀ r ∈ twoAttempts, 0 < r.now) ∧ InvA "u2" oneUserDB ∧
    (countReferred "u2" (runTrace oneUserDB twoAttempts).2.referrals ≤ 1 ∧
     (∀ db2 code now id, ("u2" : String) ≠ "" → code ≠ "" →
       appliedGuard db2 "u2" = true →
       applyReferral db2 "u2" "u2" code now id = (.alreadyApplied, db2) ∧
       ApplyResult.httpStatus .alreadyApplied = 409) ∧
     (∀ db2 t code now id R rc dc db3, 0 < now →
       applyReferral db2 t "u2" code now id = (.success R rc dc, db3) →
       appliedGuard db3 "u2" = true)) :=
  ⟨by decide, ⟨by unfold keysNodup; decide, by decide, by decide⟩,
   applyReferral_exactly_once_serial "u2" oneUserDB twoAttempts (by decide)
     ⟨by unfold keysNodup; decide, by decide, by decide⟩⟩

/-- C2 (counterexample): two concurrent redemptions credit the same referrer
`u1` (award 50 each) and both succeed, but under the interleaving in which both
read phases precede both commits the final balance is 50, not 2 × 50: the
second commit writes an absolute balance computed from its stale read,
clobbering the first increment (plain read-then-write, no atomic add or
compare-and-swap retry). -/
theorem referrer_lost_update_counterexample :
    (interleavedPair oneUserDB (reqU "u2" 10 "e1") (reqU "u3" 11 "e2")).1
      = .success "u1" 50 20 ∧
    (interleavedPair oneUserDB (reqU "u2" 10 "e1") (reqU "u3" 11 "e2")).2.1
      = .success "u1" 50 20 ∧
    coinsOf (interleavedPair oneUserDB (reqU "u2" 10 "e1") (reqU "u3" 11 "e2")).2.2 "u1"
      = 50 ∧
    (50 : Int) ≠ 2 * 50 := by
  decide

/-- C2 (amended): when redemptions execute serially no increment is lost: the
referrer's balance rises by exactly the sum of the referrer awards of the
successful redemptions crediting it — N × referrerAward when the award is
constant.  Under concurrent interleavings increments can be lost, because the
commit writes an absolute balance from a plain read-then-write (see the
counterexample). -/
theorem referrer_credit_serial (R : String) (db : DB) (rs : List Request)
    (hnd : keysNodup db.users) (hR : ∀ r ∈ rs, r.newUid ≠ R) :
    coinsOf (runTrace db rs).2 R
      = coinsOf db R + awardsTo R (runTrace db rs).1 :=
  coinsOf_runTrace db rs R hnd hR

/-- Witness for C2's amended theorem: two serial redemptions by `u2` and `u3`
crediting referrer `u1`. -/
theorem referrer_credit_serial_witness :
    keysNodup oneUserDB.users ∧
    (∀ r ∈ [reqU "u2" 10 "e1", reqU "u3" 11 "e2"], r.newUid ≠ "u1") ∧
    coinsOf (runTrace oneUserDB [reqU "u2" 10 "e1", reqU "u3" 11 "e2"]).2 "u1"
      = coinsOf oneUserDB "u1"
        + awardsTo "u1" (runTrace oneUserDB [reqU "u2" 10 "e1", reqU "u3" 11 "e2"]).1 :=
  ⟨by unfold keysNodup; decide, by decide,
   referrer_credit_serial "u1" oneUserDB [reqU "u2" 10 "e1", reqU "u3" 11 "e2"]
     (by unfold keysNodup; decide) (by decide)⟩

/-- C6: award amounts are read from the current settings record on every
redemption and snapshotted into the ledger entry.  With no settings record the
defaults 50/20 apply; after the admin sets `referrerCoins := 10` the very next
redemption awards 10 (referred stays at its 20 default), and the ledger entry
written under the defaults keeps its original 50/20 snapshot. -/
theorem settings_fresh_defaults_and_snapshot :
    (applyReferral oneUserDB "u2" "u2" "U1C" 100 "led1").1 = .success "u1" 50 20 ∧
    ((applyReferral (updateSettingsHandler
        (applyReferral oneUserDB "u2" "u2" "U1C" 100 "led1").2
        (some 10) none none).2 "u3" "u3" "U1C" 200 "led2").1
      = .success "u1" 10 20) ∧
    coinsOf ((applyReferral (updateSettingsHandler
        (applyReferral oneUserDB "u2" "u2" "U1C" 100 "led1").2
        (some 10) none none).2 "u3" "u3" "U1C" 200 "led2").2) "u1" = 60 ∧
    ((applyReferral (updateSettingsHandler
        (applyReferral oneUserDB "u2" "u2" "U1C" 100 "led1").2
        (some 10) none none).2 "u3" "u3" "U1C" 200 "led2").2).referrals.map
      (fun e => (e.id, e.referrerCoins, e.referredCoins))
      = [("led1", 50, 20), ("led2", 10, 20)] := by
  decide

lemma makeReferralCode_ne_empty (hash6 : String → String) (uid : String)
    (now : Nat) : makeReferralCode hash6 uid now ≠ "" := by
  unfold makeReferralCode
  intro h
  have hlen := congrArg String.length h
  rw [String.length_append, String.length_append] at hlen
  have h1 : ("-" : String).length = 1 := rfl
  have h0 : ("" : String).length = 0 := rfl
  omega

lemma generateReferral_existing (hash6 : String → String) (db : DB)
    (uid code : String) (u : User) (n : Nat)
    (hu : getUser db.users uid = some u) (hc : u.referralCode = some code)
    (hne : code ≠ "") : generateReferral hash6 db uid n = (code, db) := by
  unfold generateReferral
  simp only [hu]
  rw [if_pos (by simp [truthyStr, hc, bne_iff_ne, hne])]
  simp [hc]

/-- C7: code generation is idempotent: after one `/generateReferral` call for
an account, a second call returns the same code and performs no write — the
state after the second call is exactly the state after the first. -/
theorem ensureCode_idempotent (hash6 : String → String) (db : DB)
    (uid : String) (n1 n2 : Nat) :
    (generateReferral hash6 (generateReferral hash6 db uid n1).2 uid n2).1
      = (generateReferral hash6 db uid n1).1 ∧
    (generateReferral hash6 (generateReferral hash6 db uid n1).2 uid n2).2
      = (generateReferral hash6 db uid n1).2 := by
  cases hu : getUser db.users uid with
  | some data =>
    by_cases ht : truthyStr data.referralCode
    · obtain ⟨c, hc⟩ : ∃ c, data.referralCode = some c := by
        cases hcc : data.referralCode with
        | none =>
          rw [hcc] at ht
          simp [truthyStr] at ht
        | some c => exact ⟨c, rfl⟩
      have hcne : c ≠ "" := by
        rw [hc] at ht
        simpa [truthyStr, bne_iff_ne] using ht
      have h1 := generateReferral_existing hash6 db uid c data n1 hu hc hcne
      have h2 := generateReferral_existing hash6 db uid c data n2 hu hc hcne
      simp only [h1, h2]
      exact ⟨trivial, trivial⟩
    · have h1 : generateReferral hash6 db uid n1
          = (makeReferralCode hash6 uid n1,
             { db with
               users := setUser db.users uid
                 { data with
                   referralCode := some (makeReferralCode hash6 uid n1),
                   updatedAt := some n1 } }) := by
        unfold generateReferral
        simp only [hu]
        rw [if_neg ht]
      have hg : getUser
          (setUser db.users uid
            { data with
              referralCode := some (makeReferralCode hash6 uid n1),
              updatedAt := some n1 }) uid
          = some
            { data with
              referralCode := some (makeReferralCode hash6 uid n1),
              updatedAt := some n1 } := getUser_setUser_self _ _ _
      have h2 := generateReferral_existing hash6
        { db with
          users := setUser db.users uid
            { data with
              referralCode := some (makeReferralCode hash6 uid n1),
              updatedAt := some n1 } }
        uid (makeReferralCode hash6 uid n1)
        { data with
          referralCode := some (makeReferralCode hash6 uid n1),
          updatedAt := some n1 }
        n2 hg rfl (makeReferralCode_ne_empty hash6 uid n1)
      simp only [h1]
      simp only [h2]
      exact ⟨trivial, trivial⟩
  | none =>
    have h1 : generateReferral hash6 db uid n1
        = (makeReferralCode hash6 uid n1,
           { db with
             users := setUser db.users uid
               { emptyUser with
                 referralCode := some (makeReferralCode hash6 uid n1),
                 updatedAt := some n1 } }) := by
      unfold generateReferral
      simp only [hu]
    have hg : getUser
        (setUser db.users uid
          { emptyUser with
            referralCode := some (makeReferralCode hash6 uid n1),
            updatedAt := some n1 }) uid
        = some
          { emptyUser with
            referralCode := some (makeReferralCode hash6 uid n1),
            updatedAt := some n1 } := getUser_setUser_self _ _ _
    have h2 := generateReferral_existing hash6
      { db with
        users := setUser db.users uid
          { emptyUser with
            referralCode := some (makeReferralCode hash6 uid n1),
            updatedAt := some n1 } }
      uid (makeReferralCode hash6 uid n1)
      { emptyUser with
        referralCode := some (makeReferralCode hash6 uid n1),
        updatedAt := some n1 }
      n2 hg rfl (makeReferralCode_ne_empty hash6 uid n1)
    simp only [h1]
    simp only [h2]
    exact ⟨trivial, trivial⟩

lemma mem_insertByCreatedAt (e y : RefEntry) (l : List RefEntry) :
    y ∈ insertByCreatedAt e l ↔ y = e ∨ y ∈ l := by
  induction l with
  | nil => simp [insertByCreatedAt]
  | cons x xs ih =>
    unfold insertByCreatedAt
    by_cases h : x.createdAt ≤ e.createdAt
    · rw [if_pos h]
      simp only [List.mem_cons, ih]
      tauto
    · rw [if_neg h]
      simp only [List.mem_cons]

lemma sorted_insertByCreatedAt (e : RefEntry) (l : List RefEntry)
    (h : List.Sorted (fun a b : RefEntry => a.createdAt ≤ b.createdAt) l) :
    List.Sorted (fun a b : RefEntry => a.createdAt ≤ b.createdAt)
      (insertByCreatedAt e l) := by
  induction l with
  | nil => simp [insertByCreatedAt]
  | cons x xs ih =>
    rw [List.sorted_cons] at h
    unfold insertByCreatedAt
    by_cases hx : x.createdAt ≤ e.createdAt
    · rw [if_pos hx, List.sorted_cons]
      refine ⟨?_, ih h.2⟩
      intro y hy
      rcases (mem_insertByCreatedAt e y xs).mp hy with rfl | hmem
      · exact hx
      · exact h.1 y hmem
    · rw [if_neg hx, List.sorted_cons]
      refine ⟨?_, List.sorted_cons.mpr h⟩
      intro y hy
      rcases List.mem_cons.mp hy with rfl | hmem
      · omega
      · have := h.1 y hmem
        omega

lemma sorted_sortByCreatedAt (l : List RefEntry) :
    List.Sorted (fun a b : RefEntry => a.createdAt ≤ b.createdAt)
      (sortByCreatedAt l) := by
  induction l with
  | nil => simp [sortByCreatedAt]
  | cons x xs ih => exact sorted_insertByCreatedAt x _ ih

lemma length_insertByCreatedAt (e : RefEntry) (l : List RefEntry) :
    (insertByCreatedAt e l).length = l.length + 1 := by
  induction l with
  | nil => rfl
  | cons x xs ih =>
    unfold insertByCreatedAt
    by_cases h : x.createdAt ≤ e.createdAt
    · rw [if_pos h]
      simp [ih]
    · rw [if_neg h]
      simp

lemma length_sortByCreatedAt (l : List RefEntry) :
    (sortByCreatedAt l).length = l.length := by
  induction l with
  | nil => rfl
  | cons x xs ih =>
    unfold sortByCreatedAt
    rw [length_insertByCreatedAt, ih, List.length_cons]

/-- C8 (amended): the admin listing is bounded by the hard maximum of 200
entries whatever limit is requested (absent limit defaults to 100), and the
returned sequence is the suffix of the ledger holding the most recent entries
in ascending `createdAt` order — i.e. most recent last, not first. -/
theorem listRecent_bounded_and_ordered (refs : List RefEntry) (q : Option Nat) :
    (listRecent refs q).length ≤ 200 ∧
    (listRecent refs q).length = min (min 200 (q.getD 100)) refs.length ∧
    List.Sorted (fun a b : RefEntry => a.createdAt ≤ b.createdAt)
      (listRecent refs q) ∧
    (listRecent refs q).IsSuffix (sortByCreatedAt refs) ∧
    (listRecent refs none).length = min 100 refs.length := by
  unfold listRecent takeLast
  refine ⟨?_, ?_, ?_, ?_, ?_⟩
  · rw [List.length_drop, length_sortByCreatedAt]
    omega
  · rw [List.length_drop, length_sortByCreatedAt]
    omega
  · exact List.Pairwise.sublist (List.drop_sublist _ _) (sorted_sortByCreatedAt refs)
  · exact List.drop_suffix _ _
  · rw [List.length_drop, length_sortByCreatedAt]
    simp only [Option.getD_none]
    omega

/-- Concrete fixture: a ledger entry with the given id and creation time. -/
def entryAt (id : String) (t : Nat) : RefEntry :=
  { id := id, referrerUid := "r", referredUid := "a", referrerCode := "C",
    referredCode := none, awarded := true, referrerCoins := 50,
    referredCoins := 20, createdAt := t }

/-- C8 (counterexample): with two ledger entries the listing returns the older
entry first and the most recent one last, refuting "most recent first". -/
theorem listRecent_not_most_recent_first :
    listRecent [entryAt "new" 2, entryAt "old" 1] none
      = [entryAt "old" 1, entryAt "new" 2] ∧
    (entryAt "old" 1).createdAt < (entryAt "new" 2).createdAt := by
  decide

/-- C9 (amended): the settings update merges exactly the provided fields into
the stored record, leaves every unprovided field (and the rest of the state)
untouched, but responds with only the provided fields (`saved` echoes the
update object), not the effective merged settings. -/
theorem updateSettings_merge (db : DB) (rc dc : Option Int) (rp : Option Bool) :
    (updateSettingsHandler db rc dc rp).2.settings.referrerCoins
      = (match rc with | some v => some v | none => db.settings.referrerCoins) ∧
    (updateSettingsHandler db rc dc rp).2.settings.referredCoins
      = (match dc with | some v => some v | none => db.settings.referredCoins) ∧
    (updateSettingsHandler db rc dc rp).2.settings.requireCompleteProfile
      = (match rp with
         | some v => some v
         | none => db.settings.requireCompleteProfile) ∧
    (updateSettingsHandler db rc dc rp).1
      = { referrerCoins := rc, referredCoins := dc,
          requireCompleteProfile := rp } ∧
    (updateSettingsHandler db rc dc rp).2.users = db.users ∧
    (updateSettingsHandler db rc dc rp).2.referrals = db.referrals :=
  ⟨rfl, rfl, rfl, rfl, rfl, rfl⟩

/-- Concrete fixture: stored settings {referrerCoins: 50, referredCoins: 20}. -/
def storedSettingsDB : DB :=
  { users := [], referrals := [],
    settings := { referrerCoins := some 50, referredCoins := some 20,
                  requireCompleteProfile := none } }

/-- C9 (counterexample): updating only `referrerCoins` to 10 merges the store
to {10, 20}, but the handler responds with saved = {referrerCoins: 10} only —
the response is not the effective merged settings. -/
theorem updateSettings_response_counterexample :
    (updateSettingsHandler storedSettingsDB (some 10) none none).2.settings
      = { referrerCoins := some 10, referredCoins := some 20,
          requireCompleteProfile := none } ∧
    (updateSettingsHandler storedSettingsDB (some 10) none none).1
      = { referrerCoins := some 10, referredCoins := none,
          requireCompleteProfile := none } ∧
    (updateSettingsHandler storedSettingsDB (some 10) none none).1
      ≠ (updateSettingsHandler storedSettingsDB (some 10) none none).2.settings := by
  decide

end ReferralBackend
